import Mathlib

/-!
Verification of the archangel email scripts.

Shallow embedding of the two scripts
`docs/scripts/eml-view-and-extract-attachments.py` and
`docs/scripts/maildir-flag-manager.py`.  Strings from the Python code are
modelled as `List Char`; byte strings as `List Nat` (each element `< 256`);
Python `None`-able strings as `Option (List Char)`.  Functions from the
Python standard library that the scripts call (`email.utils.parseaddr`,
`email.utils.parsedate_to_datetime`, `html2text`) are external
collaborators and appear as oracle parameters; the behaviour of
`bytes.decode` and `os.path.splitext` is modelled directly, faithful to
CPython.
-/

namespace Archangel

/-! ### Generic character and list helpers (Python string semantics) -/

/-- Whitespace characters recognised by Python `str.split()` and
`str.strip()` (ASCII subset; the scripts never meet other whitespace). -/
def isPySpace (c : Char) : Bool :=
  c == ' ' || c == '\t' || c == '\n' || c == '\r' || c == '\x0b' || c == '\x0c'

/-- Python `str.strip()`: drop whitespace from both ends. -/
def pyStrip (l : List Char) : List Char :=
  ((l.dropWhile isPySpace).reverse.dropWhile isPySpace).reverse

/-- Python `str.split()` with no separator: split on whitespace runs,
dropping empty words.  `acc` holds the current word reversed. -/
def splitWsAux : List Char → List Char → List (List Char)
  | [], acc => if acc = [] then [] else [acc.reverse]
  | c :: rest, acc =>
    if isPySpace c then
      if acc = [] then splitWsAux rest []
      else acc.reverse :: splitWsAux rest []
    else splitWsAux rest (c :: acc)

def splitWs (l : List Char) : List (List Char) := splitWsAux l []

/-- Python `' '.join(s.split())`: collapse whitespace runs to single
spaces and trim the ends. -/
def collapseWs (l : List Char) : List Char :=
  List.intercalate [' '] (splitWs l)

/-- Python truthiness of an optional string: `None` and `""` are falsy. -/
def truthy : Option (List Char) → Bool
  | none => false
  | some s => !s.isEmpty

/-! ### maildir-flag-manager.py -/

/-- The maildir flag marker `":2,"`. -/
def markerChars : List Char := [':', '2', ',']

/-- Does the list start with the marker `":2,"`? -/
def startsWithMarker : List Char → Bool
  | a :: b :: d :: _ => a = ':' && b = '2' && d = ','
  | _ => false

/-- Python `":2," in filename`. -/
def containsMarker : List Char → Bool
  | [] => false
  | c :: rest => startsWithMarker (c :: rest) || containsMarker rest

/-- Python `filename.rsplit(":2,", 1)`: split at the LAST occurrence of
the marker; `none` when the marker does not occur. -/
def splitAtLastMarker : List Char → Option (List Char × List Char)
  | [] => none
  | c :: rest =>
    match splitAtLastMarker rest with
    | some (b, f) => some (c :: b, f)
    | none =>
      if startsWithMarker (c :: rest) then some ([], rest.drop 2) else none

/-- Translation of `parse_maildir_flags` (maildir-flag-manager.py:53-65): split a maildir
filename into `(base, flags)`; a filename without the `":2,"` marker has
an empty flags string. -/
def parse_maildir_flags (filename : List Char) : List Char × List Char :=
  match splitAtLastMarker filename with
  | some bf => bf
  | none => (filename, [])

/-- Insert a character into a strictly sorted list, keeping it strictly
sorted (used to model Python `sorted(set(s))`). -/
def insertSortedDedup (c : Char) : List Char → List Char
  | [] => [c]
  | d :: ds =>
    if c < d then c :: d :: ds
    else if c = d then d :: ds
    else d :: insertSortedDedup c ds

/-- Python `"".join(sorted(set(s)))`: the distinct characters of `s` in
ascending order. -/
def sortedDedup (l : List Char) : List Char := l.foldr insertSortedDedup []

/-- Translation of `build_flagged_filename` (maildir-flag-manager.py:68-75): rebuild a
maildir filename with the given flags, sorted and deduplicated. -/
def build_flagged_filename (filename new_flags : List Char) : List Char :=
  (parse_maildir_flags filename).1 ++ markerChars ++ sortedDedup new_flags

/-- A maildir message path, decomposed the way `rename_with_flag` does:
`root` is `dirname(dirname(file_path))`, `subdir` is
`basename(dirname(file_path))` (normally `"new"` or `"cur"`), `filename`
is `basename(file_path)`. -/
structure MaildirPath where
  root : List Char
  subdir : List Char
  filename : List Char
deriving DecidableEq

/-- Translation of `rename_with_flag` (maildir-flag-manager.py:78-109) with
`dry_run=False`.  Returns the changed flag together with the path of the
file after the call (unchanged when the flag was already present, the
rename target otherwise). -/
def rename_with_flag (p : MaildirPath) (flag : Char) : Bool × MaildirPath :=
  let current_flags := (parse_maildir_flags p.filename).2
  if flag ∈ current_flags then (false, p)
  else
    let new_flags := current_flags ++ [flag]
    let new_filename := build_flagged_filename p.filename new_flags
    let target_subdir :=
      if 'S' ∈ new_flags ∧ p.subdir = "new".toList then "cur".toList
      else p.subdir
    (true, ⟨p.root, target_subdir, new_filename⟩)

/-! ### eml-view-and-extract-attachments.py: parse_received_headers -/

/-- Model of the regex class `\w` on the ASCII characters the scripts
meet: alphanumerics and underscore. -/
def isWordChar (c : Char) : Bool := c.isAlphanum || c == '_'

/-- The regex class `[\w.-]` used for host names. -/
def isHostChar (c : Char) : Bool := isWordChar c || c == '.' || c == '-'

/-- Drop the literal characters `k` from the front of `l`; `none` when
`l` does not start with `k`. -/
def dropLiteral : List Char → List Char → Option (List Char)
  | [], l => some l
  | _ :: _, [] => none
  | k :: ks, c :: cs => if c = k then dropLiteral ks cs else none

/-- Try to match the regex `kw`-then-`\s+`-then-`([\w.-]+)` at the head
of `l`, returning the capture.  The whitespace and host-character classes
are disjoint, so the greedy match needs no backtracking. -/
def matchHostAt (kw l : List Char) : Option (List Char) :=
  match dropLiteral kw l with
  | none => none
  | some rest =>
    if rest.takeWhile isPySpace = [] then none
    else
      let host := (rest.dropWhile isPySpace).takeWhile isHostChar
      if host = [] then none else some host

/-- Python `re.search(kw + r"\s+([\w.-]+)", l).group(1)`: the leftmost
position where the pattern matches wins. -/
def searchHost (kw : List Char) : List Char → Option (List Char)
  | [] => none
  | c :: rest =>
    match matchHostAt kw (c :: rest) with
    | some h => some h
    | none => searchHost kw rest

/-- Python `re.search(r";\s*(.+)$", l)` followed by `.group(1).strip()`,
for inputs without newline characters (the header has been
whitespace-collapsed before the search): the regex matches at the first
`';'` that has at least one character after it, and after stripping the
captured group the value is the stripped tail after that `';'`. -/
def timestampOf : List Char → Option (List Char)
  | [] => none
  | ';' :: rest => if rest = [] then none else some (pyStrip rest)
  | _ :: rest => timestampOf rest

/-- The `timing` dictionary built by `parse_received_headers`
(eml-view-and-extract-attachments.py:53-58). -/
structure Timing where
  sent_time : Option (List Char)
  sent_server : Option (List Char)
  received_time : Option (List Char)
  received_server : Option (List Char)
deriving DecidableEq

def kwFrom : List Char := ['f', 'r', 'o', 'm']

def kwBy : List Char := ['b', 'y']

/-- One iteration of the loop in `parse_received_headers`
(eml-view-and-extract-attachments.py:31-44). -/
def stepHeader (st : Timing) (h : List Char) : Timing :=
  let h' := collapseWs h
  let ts := timestampOf h'
  let fm := searchHost kwFrom h'
  let bm := searchHost kwBy h'
  if fm.isSome ∧ bm.isSome ∧ st.received_server = none then ⟨ts, fm, ts, bm⟩
  else st

/-- Translation of `parse_received_headers` (eml-view-and-extract-attachments.py:22-58):
fold the loop over the headers, then apply the fallback to the first
header when no header set `received_server`. -/
def parse_received_headers (headers : List (List Char)) : Timing :=
  let st := headers.foldl stepHeader ⟨none, none, none, none⟩
  if st.received_server = none then
    match headers with
    | [] => st
    | h0 :: _ =>
      let h := collapseWs h0
      ⟨st.sent_time, st.sent_server, timestampOf h,
        some ((searchHost kwBy h).getD ['u', 'n', 'k', 'n', 'o', 'w', 'n'])⟩
  else st

/-- Does a header contain both a `from` host and a `by` host (the guard
of the authoritative-hop branch of `parse_received_headers`)? -/
def hasBothTokens (h : List Char) : Bool :=
  (searchHost kwFrom (collapseWs h)).isSome && (searchHost kwBy (collapseWs h)).isSome

/-! ### extract_body and bytes.decode with errors=ignore -/

/-- Is a byte a UTF-8 continuation byte (`10xxxxxx`)? -/
def isCont (b : Nat) : Bool := 0x80 ≤ b && b ≤ 0xBF

/-- Constraint on the second byte of a three-byte UTF-8 sequence with
lead byte `b0` (CPython rejects overlong forms and surrogates here). -/
def isCont3 (b0 b1 : Nat) : Bool :=
  if b0 = 0xE0 then 0xA0 ≤ b1 && b1 ≤ 0xBF
  else if b0 = 0xED then 0x80 ≤ b1 && b1 ≤ 0x9F
  else isCont b1

/-- Constraint on the second byte of a four-byte UTF-8 sequence with
lead byte `b0`. -/
def isCont4 (b0 b1 : Nat) : Bool :=
  if b0 = 0xF0 then 0x90 ≤ b1 && b1 ≤ 0xBF
  else if b0 = 0xF4 then 0x80 ≤ b1 && b1 ≤ 0x8F
  else isCont b1

/-- One step of the CPython UTF-8 decoder with `errors="ignore"`, at a
byte `b0` followed by `rest`: the decoded character (`none` for an
ill-formed or truncated sequence, which the ignore handler drops) and the total
number of bytes consumed including `b0` (the maximal subpart of an
ill-formed sequence). -/
def utf8Step (b0 : Nat) (rest : List Nat) : Option Char × Nat :=
  if b0 < 0x80 then (some (Char.ofNat b0), 1)
  else if 0xC2 ≤ b0 ∧ b0 ≤ 0xDF then
    match rest with
    | [] => (none, 1)
    | b1 :: _ =>
      if isCont b1 then (some (Char.ofNat ((b0 - 0xC0) * 64 + (b1 - 0x80))), 2)
      else (none, 1)
  else if 0xE0 ≤ b0 ∧ b0 ≤ 0xEF then
    match rest with
    | [] => (none, 1)
    | b1 :: rest2 =>
      if isCont3 b0 b1 then
        match rest2 with
        | [] => (none, 2)
        | b2 :: _ =>
          if isCont b2 then
            (some (Char.ofNat ((b0 - 0xE0) * 4096 + (b1 - 0x80) * 64 + (b2 - 0x80))), 3)
          else (none, 2)
      else (none, 1)
  else if 0xF0 ≤ b0 ∧ b0 ≤ 0xF4 then
    match rest with
    | [] => (none, 1)
    | b1 :: rest2 =>
      if isCont4 b0 b1 then
        match rest2 with
        | [] => (none, 2)
        | b2 :: rest3 =>
          if isCont b2 then
            match rest3 with
            | [] => (none, 3)
            | b3 :: _ =>
              if isCont b3 then
                (some (Char.ofNat ((b0 - 0xF0) * 262144 + (b1 - 0x80) * 4096 +
                    (b2 - 0x80) * 64 + (b3 - 0x80))), 4)
              else (none, 3)
          else (none, 2)
      else (none, 1)
  else (none, 1)

/-- Fuelled driver of the UTF-8 decoder: every step consumes at least
one byte, so fuel equal to the length of the input suffices. -/
def utf8DecodeGo : Nat → List Nat → List Char
  | _, [] => []
  | 0, _ :: _ => []
  | fuel + 1, b0 :: rest =>
    let (oc, k) := utf8Step b0 rest
    let tail := utf8DecodeGo fuel (rest.drop (k - 1))
    match oc with
    | some c => c :: tail
    | none => tail

/-- CPython `bytes.decode("utf-8", errors="ignore")`: decode a byte list
as UTF-8, silently dropping every ill-formed subsequence (the maximal
subpart of the invalid sequence is skipped; an incomplete sequence at the
end of input is dropped).  Never fails. -/
def decodeUtf8Ignore (l : List Nat) : List Char := utf8DecodeGo l.length l

/-- The UTF-8 encoding of one character (used to state the corrected
decoding property). -/
def utf8EncodeChar (c : Char) : List Nat :=
  let n := c.toNat
  if n < 0x80 then [n]
  else if n < 0x800 then [0xC0 + n / 64, 0x80 + n % 64]
  else if n < 0x10000 then
    [0xE0 + n / 4096, 0x80 + n / 64 % 64, 0x80 + n % 64]
  else
    [0xF0 + n / 262144, 0x80 + n / 4096 % 64, 0x80 + n / 64 % 64, 0x80 + n % 64]

/-- The UTF-8 encoding of a character list. -/
def utf8Encode (s : List Char) : List Nat := (s.map utf8EncodeChar).flatten

/-- Fuelled driver for `stripTags`; every step consumes at least one
character, so fuel equal to the input length suffices. -/
def stripTagsGo : Nat → List Char → List Char
  | _, [] => []
  | 0, l => l
  | fuel + 1, '<' :: rest =>
    let inside := rest.takeWhile (· ≠ '>')
    if inside = [] ∨ rest.dropWhile (· ≠ '>') = [] then
      '<' :: stripTagsGo fuel rest
    else stripTagsGo fuel (rest.drop (inside.length + 1))
  | fuel + 1, c :: rest => c :: stripTagsGo fuel rest

/-- Python `re.sub(r"<[^>]+>", "", html)` (the fallback body filter of
`extract_body` when `html2text` is not installed): delete every
non-overlapping occurrence of `'<'`, one or more non-`'>'` characters,
then `'>'`. -/
def stripTags (l : List Char) : List Char := stripTagsGo l.length l

/-- One MIME part as `extract_body` sees it: `content_type` is
`part.get_content_type()` and `payload` is
`part.get_payload(decode=True)` (`none` models Python `None`). -/
structure Part where
  content_type : List Char
  payload : Option (List Nat)
deriving DecidableEq

/-- One iteration of the part walk in `extract_body`
(eml-view-and-extract-attachments.py:69-78), carried state
`(plain_text, html_text)`. -/
def bodyStep (st : Option (List Char) × Option (List Char)) (p : Part) :
    Option (List Char) × Option (List Char) :=
  if p.content_type = "text/plain".toList ∧ st.1 = none then
    match p.payload with
    | some bs => (some (decodeUtf8Ignore bs), st.2)
    | none => st
  else if p.content_type = "text/html".toList ∧ st.2 = none then
    match p.payload with
    | some bs => (st.1, some (decodeUtf8Ignore bs))
    | none => st
  else st

/-- Translation of `extract_body` (eml-view-and-extract-attachments.py:61-93).
`parts` is the flattened `msg.walk()` order; `h2t` models the external
`html2text` capability (`none` models `ImportError`, selecting the
tag-stripping fallback). -/
def extract_body (h2t : Option (List Char → List Char)) (parts : List Part) :
    List Char :=
  let st := parts.foldl bodyStep (none, none)
  match st.1 with
  | some t => t
  | none =>
    match st.2 with
    | some ht =>
      match h2t with
      | some f => f ht
      | none => stripTags ht
    | none => []

/-! ### Filename derivation -/

/-- The metadata fields `generate_basename` reads (`extract_metadata`
stores `msg.get("Date")` and `msg.get("From")`, each `None` when the
header is absent).  `fromField` models the Python key `"from"`. -/
structure Metadata where
  date : Option (List Char)
  fromField : Option (List Char)
deriving DecidableEq

/-- The one exception `generate_basename` can raise. -/
inductive PyExn where
  | indexError
deriving DecidableEq

def unknownToken : List Char := ['u', 'n', 'k', 'n', 'o', 'w', 'n']

/-- Translation of `generate_basename` (eml-view-and-extract-attachments.py:110-137).
External collaborators appear as oracles: `formatDate` models
`email.utils.parsedate_to_datetime` followed by
`strftime("%Y-%m-%d-%H%M")`, returning `none` when parsing raises the
`ValueError`/`TypeError` that the script catches; `parseaddr` models
`email.utils.parseaddr`, returning the `(display_name, addr)` pair.
`display_name.split()[0]` raises `IndexError` when the display name is
non-empty but consists of whitespace only, hence the `Except` result. -/
def generate_basename (formatDate : List Char → Option (List Char))
    (parseaddr : List Char → List Char × List Char) (m : Metadata) :
    Except PyExn (List Char) :=
  let datePart :=
    match m.date with
    | none => unknownToken
    | some d =>
      if d = [] then unknownToken
      else
        match formatDate d with
        | some p => p
        | none => unknownToken
  let senderPart : Except PyExn (List Char) :=
    match m.fromField with
    | none => Except.ok unknownToken
    | some f =>
      if f = [] then Except.ok unknownToken
      else
        let (display_name, addr) := parseaddr f
        if display_name ≠ [] then
          match splitWs display_name with
          | [] => Except.error PyExn.indexError
          | w :: _ => Except.ok w
        else if addr ≠ [] then Except.ok (addr.takeWhile (· ≠ '@'))
        else Except.ok unknownToken
  match senderPart with
  | Except.error e => Except.error e
  | Except.ok sender => Except.ok (datePart ++ '-' :: sender)

/-- The characters the cleaning regex `[^\w\-.]` keeps. -/
def keepChar (c : Char) : Bool := isWordChar c || c == '-' || c == '.'

/-- Model of the Python hyphen-collapsing substitution (regex two or
more hyphens, replaced by one): every maximal run of hyphens becomes a
single hyphen.  The flag records whether the previous character was part
of a hyphen run. -/
def collapseHyphensGo : Bool → List Char → List Char
  | _, [] => []
  | inRun, c :: rest =>
    if c = '-' then
      if inRun then collapseHyphensGo true rest
      else '-' :: collapseHyphensGo true rest
    else c :: collapseHyphensGo false rest

def collapseHyphens (l : List Char) : List Char := collapseHyphensGo false l

/-- Python strip of hyphens from both ends of the text. -/
def stripHyphens (l : List Char) : List Char :=
  ((l.dropWhile (· = '-')).reverse.dropWhile (· = '-')).reverse

/-- Python strip of trailing hyphens from the text. -/
def rstripHyphens (l : List Char) : List Char :=
  (l.reverse.dropWhile (· = '-')).reverse

/-- Translation of `_clean_for_filename` (eml-view-and-extract-attachments.py:140-156).
Both call sites use the default `max_length=80`, passed explicitly
here. -/
def clean_for_filename (text : List Char) (max_length : Nat) : List Char :=
  let t1 := pyStrip text
  let t2 := t1.map fun c => if c = ' ' then '-' else c
  let t3 := t2.filter keepChar
  let t4 := collapseHyphens t3
  let t5 := stripHyphens t4
  if t5.length > max_length then rstripHyphens (t5.take max_length) else t5

/-- The characters the specification forbids in derived filenames. -/
def forbiddenChar (c : Char) : Bool :=
  c == ' ' || c == '(' || c == ')' || c == '&' || c == '!' || c == ':'

/-- Characters that the cleaning rule removes outright: not kept by the
regex and not whitespace (whitespace is stripped or turned into hyphens
first). -/
def removedByClean (c : Char) : Bool := !keepChar c && !isPySpace c

/-- Translation of `generate_email_filename` (eml-view-and-extract-attachments.py:
159-169).  `subject` is `metadata["subject"]`, `None` when the header is
absent. -/
def generate_email_filename (basename : List Char)
    (subject : Option (List Char)) : List Char :=
  let clean_subject :=
    if truthy subject then clean_for_filename (subject.getD []) 80
    else "no-subject".toList
  basename ++ "-EMAIL-".toList ++ clean_subject

/-- Model of `os.path.splitext` (CPython `genericpath._splitext`) for a plain
filename with no directory separators: split at the last dot, except
that a basename consisting only of leading dots before that position is
not split. -/
def splitext (l : List Char) : List Char × List Char :=
  match (l.reverse.findIdx? (· = '.')).map (fun j => l.length - 1 - j) with
  | none => (l, [])
  | some i => if (l.take i).all (· = '.') then (l, []) else (l.take i, l.drop i)

/-- Translation of `generate_attachment_filename` (eml-view-and-extract-attachments.py:
172-183): clean the stem, preserve the original extension verbatim. -/
def generate_attachment_filename (basename : List Char)
    (original_filename : Option (List Char)) : List Char :=
  if !truthy original_filename then basename ++ "-ATTACH-unnamed".toList
  else
    let (name, ext) := splitext (original_filename.getD [])
    basename ++ "-ATTACH-".toList ++ clean_for_filename name 80 ++ ext

/-! ### process_eml: staging, collision check, commit, cleanup

The pipeline (eml-view-and-extract-attachments.py:227-311) is modelled
at the level of the filesystem effects the claims are about: the
destination directory is the list of filenames it holds, the temporary
directory is `some` list of staged names while it exists and `none`
after `shutil.rmtree`.  Steps 1-5 of the pipeline (copying the source
message, parsing it, writing the renamed `.eml`, the `.txt` and the
attachments into the temporary directory) only touch the temporary
directory; their outcome is abstracted as `stage`: either the list of
`FileRecord`s built at lines 276-285, or an arbitrary exception raised
along the way.  The collision check (lines 287-293), the move loop
(lines 295-300) and the `finally` cleanup (lines 308-311) are translated
directly; since each `shutil.move` call of the commit loop can itself
raise, the loop takes a fault oracle giving the outcome of every single
move. -/

inductive FType where
  | eml
  | txt
  | attach
deriving DecidableEq

/-- One entry of the `files` list: `path` is `None` until the file has
been moved to the destination. -/
structure FileRec where
  ftype : FType
  name : List Char
  path : Option (List Char)
deriving DecidableEq

/-- Exceptions that can escape `process_eml`. -/
inductive PyErr where
  | fileExists : List Char → List Char → PyErr
  | other : Nat → PyErr
deriving DecidableEq

/-- Filesystem state seen by the pipeline. -/
structure FsState where
  temp : Option (List (List Char))
  dest : List (List Char)
deriving DecidableEq

/-- Model of `os.path.join(a, b)`. -/
def pathJoin (a b : List Char) : List Char := a ++ '/' :: b

/-- The collision loop (lines 287-293): the first staged name that
already exists in the destination, `none` when there is none.  All
checks run before any move. -/
def findCollision (dest : List (List Char)) : List FileRec → Option (List Char)
  | [] => none
  | f :: rest => if f.name ∈ dest then some f.name else findCollision dest rest

/-- The move loop (lines 295-300): move each staged file into the
destination and record its final path.  Each `shutil.move` call (line
299) can itself raise — file vanished, permission denied, cross-device
failure — so the loop takes a fault oracle: `moveFault i` is `none` when
the move of the `i`-th staged file succeeds and `some e` when it raises
`e`.  On a raise the loop stops where Python would: files already moved
stay in the destination and the exception propagates. -/
def moveFiles (moveFault : Nat → Option PyErr) (outDir : List Char)
    (i : Nat) (dest : List (List Char)) :
    List FileRec → List (List Char) × Except PyErr (List FileRec)
  | [] => (dest, Except.ok [])
  | f :: rest =>
    match moveFault i with
    | some e => (dest, Except.error e)
    | none =>
      match moveFiles moveFault outDir (i + 1) (dest ++ [f.name]) rest with
      | (d, Except.error e) => (d, Except.error e)
      | (d, Except.ok fs) =>
        (d, Except.ok (⟨f.ftype, f.name, some (pathJoin outDir f.name)⟩ :: fs))

/-- Translation of `process_eml` (lines 227-311): create the temporary
directory, run the staging steps (abstracted as `stage`), check for
collisions, move every staged file — where any individual move may raise,
per `moveFault` — and remove the temporary directory on every exit path
(`finally`), including an exception in the middle of the commit loop. -/
def process_eml (outDir : List Char) (stage : Except PyErr (List FileRec))
    (moveFault : Nat → Option PyErr) (s0 : FsState) :
    FsState × Except PyErr (List FileRec) :=
  let s1 : FsState := ⟨some [], s0.dest⟩
  match stage with
  | Except.error e => (⟨none, s1.dest⟩, Except.error e)
  | Except.ok files =>
    let s2 : FsState := ⟨some (files.map (·.name)), s1.dest⟩
    match findCollision s2.dest files with
    | some n => (⟨none, s2.dest⟩, Except.error (PyErr.fileExists n outDir))
    | none =>
      match moveFiles moveFault outDir 0 s2.dest files with
      | (d, Except.error e) => (⟨none, d⟩, Except.error e)
      | (d, Except.ok fs) => (⟨none, d⟩, Except.ok fs)

/-! ### Lemmas about the pipeline -/

theorem findCollision_of_exists (dest : List (List Char)) (files : List FileRec)
    (h : ∃ f ∈ files, f.name ∈ dest) :
    ∃ n, findCollision dest files = some n ∧ n ∈ dest ∧ n ∈ files.map (·.name) := by
  induction files with
  | nil => simp at h
  | cons f rest ih =>
    by_cases hf : f.name ∈ dest
    · exact ⟨f.name, by simp [findCollision, hf]⟩
    · obtain ⟨g, hg, hgd⟩ := h
      rcases List.mem_cons.mp hg with hgf | hgr
      · exact absurd (hgf ▸ hgd) hf
      · obtain ⟨n, h1, h2, h3⟩ := ih ⟨g, hgr, hgd⟩
        exact ⟨n, by simp [findCollision, hf, h1, h2, h3]⟩

/-- Claim C1: if any derived output filename already exists in the
destination directory, `process_eml` aborts with a collision error that
names that filename and the destination, the destination is left exactly
as it was, and the temporary directory is removed; no staged file is
moved (all existence checks run before any move, so this holds even when
the colliding file is not the first staged file). -/
theorem process_eml_collision_aborts (outDir : List Char) (files : List FileRec)
    (moveFault : Nat → Option PyErr) (s0 : FsState)
    (h : ∃ f ∈ files, f.name ∈ s0.dest) :
    ∃ n, n ∈ s0.dest ∧ n ∈ files.map (·.name) ∧
      process_eml outDir (Except.ok files) moveFault s0 =
        (⟨none, s0.dest⟩, Except.error (PyErr.fileExists n outDir)) := by
  obtain ⟨n, h1, h2, h3⟩ := findCollision_of_exists s0.dest files h
  exact ⟨n, h2, h3, by simp [process_eml, h1]⟩

/-- Witness for C1: a run whose second staged file collides with the
destination aborts with that filename and leaves the destination
unchanged. -/
theorem process_eml_collision_aborts_witness :
    (∃ f ∈ [(⟨FType.eml, ['a'], none⟩ : FileRec), ⟨FType.txt, ['b'], none⟩],
        f.name ∈ [['b']]) ∧
      ∃ n, n ∈ [['b']] ∧
        n ∈ [(⟨FType.eml, ['a'], none⟩ : FileRec), ⟨FType.txt, ['b'], none⟩].map (·.name) ∧
        process_eml ['o']
            (Except.ok [⟨FType.eml, ['a'], none⟩, ⟨FType.txt, ['b'], none⟩])
            (fun _ => none) ⟨none, [['b']]⟩ =
          (⟨none, [['b']]⟩, Except.error (PyErr.fileExists n ['o'])) :=
  ⟨by decide,
    process_eml_collision_aborts ['o'] _ (fun _ => none) ⟨none, [['b']]⟩ (by decide)⟩

/-- Claim C2: every execution of `process_eml` — success, collision
abort, any exception during staging, and any exception raised by a
`shutil.move` in the middle of the commit loop — removes the temporary
directory before returning or propagating the error; the statement
quantifies over every staging outcome and every pattern of move
failures. -/
theorem process_eml_cleans_temp (outDir : List Char)
    (stage : Except PyErr (List FileRec)) (moveFault : Nat → Option PyErr)
    (s0 : FsState) :
    (process_eml outDir stage moveFault s0).1.temp = none := by
  cases stage with
  | error e => rfl
  | ok files =>
    cases h : findCollision s0.dest files with
    | some n => simp [process_eml, h]
    | none =>
      rcases hm : moveFiles moveFault outDir 0 s0.dest files with ⟨d, r⟩
      cases r <;> simp [process_eml, h, hm]

/-! ### Lemmas about the flag-rename engine -/

theorem startsWithMarker_iff (l : List Char) :
    startsWithMarker l = true ↔ ∃ tail, l = ':' :: '2' :: ',' :: tail := by
  cases l with
  | nil => simp [startsWithMarker]
  | cons a l1 =>
    cases l1 with
    | nil => simp [startsWithMarker]
    | cons b l2 =>
      cases l2 with
      | nil => simp [startsWithMarker]
      | cons d l3 =>
        simp [startsWithMarker, and_assoc]

theorem splitAtLastMarker_eq_none (l : List Char) :
    splitAtLastMarker l = none ↔ containsMarker l = false := by
  induction l with
  | nil => simp [splitAtLastMarker, containsMarker]
  | cons c rest ih =>
    cases h : splitAtLastMarker rest with
    | some bf =>
      have hc : containsMarker rest = true := by
        rcases hc : containsMarker rest with _ | _
        · exact absurd (ih.mpr hc) (by simp [h])
        · rfl
      simp [splitAtLastMarker, containsMarker, h, hc]
    | none =>
      have hrest : containsMarker rest = false := ih.mp h
      by_cases hs : startsWithMarker (c :: rest)
      · simp [splitAtLastMarker, containsMarker, h, hs]
      · simp [splitAtLastMarker, containsMarker, h, hs, hrest]

theorem splitAtLastMarker_append (b f : List Char)
    (hf : containsMarker f = false) :
    splitAtLastMarker (b ++ ':' :: '2' :: ',' :: f) = some (b, f) := by
  induction b with
  | nil =>
    have h1 : startsWithMarker ('2' :: ',' :: f) = false := by
      cases f <;> simp [startsWithMarker]
    have h2 : startsWithMarker (',' :: f) = false := by
      cases f with
      | nil => rfl
      | cons x t => cases t <;> simp [startsWithMarker]
    have hn : splitAtLastMarker ('2' :: ',' :: f) = none :=
      (splitAtLastMarker_eq_none _).mpr (by simp [containsMarker, h1, h2, hf])
    have step : splitAtLastMarker (':' :: '2' :: ',' :: f)
        = match splitAtLastMarker ('2' :: ',' :: f) with
          | some (bb, ff) => some (':' :: bb, ff)
          | none =>
            if startsWithMarker (':' :: '2' :: ',' :: f) then
              some ([], ('2' :: ',' :: f).drop 2)
            else none := rfl
    simp only [List.nil_append, step, hn]
    simp [startsWithMarker]
  | cons c b' ih =>
    have step : splitAtLastMarker (c :: (b' ++ ':' :: '2' :: ',' :: f))
        = match splitAtLastMarker (b' ++ ':' :: '2' :: ',' :: f) with
          | some (bb, ff) => some (c :: bb, ff)
          | none =>
            if startsWithMarker (c :: (b' ++ ':' :: '2' :: ',' :: f)) then
              some ([], (b' ++ ':' :: '2' :: ',' :: f).drop 2)
            else none := rfl
    simp only [List.cons_append, step, ih]

theorem mem_insertSortedDedup {a c : Char} {l : List Char} :
    a ∈ insertSortedDedup c l ↔ a = c ∨ a ∈ l := by
  induction l with
  | nil => simp [insertSortedDedup]
  | cons d ds ih =>
    simp only [insertSortedDedup]
    split_ifs with h1 h2
    · simp [List.mem_cons]
    · subst h2
      simp [List.mem_cons]
    · simp [List.mem_cons, ih]
      tauto

theorem sorted_insertSortedDedup {c : Char} {l : List Char}
    (h : List.Sorted (· < ·) l) :
    List.Sorted (· < ·) (insertSortedDedup c l) := by
  induction l with
  | nil => simp [insertSortedDedup]
  | cons d ds ih =>
    rcases List.sorted_cons.mp h with ⟨hd, hs⟩
    simp only [insertSortedDedup]
    split_ifs with h1 h2
    · refine List.sorted_cons.mpr ⟨?_, h⟩
      intro x hx
      rcases List.mem_cons.mp hx with rfl | hx
      · exact h1
      · exact lt_trans h1 (hd x hx)
    · exact h
    · have hdc : d < c := by
        rcases lt_trichotomy c d with hlt | heq | hgt
        · exact absurd hlt h1
        · exact absurd heq h2
        · exact hgt
      refine List.sorted_cons.mpr ⟨?_, ih hs⟩
      intro x hx
      rcases mem_insertSortedDedup.mp hx with rfl | hx
      · exact hdc
      · exact hd x hx

theorem sortedDedup_sorted (l : List Char) :
    List.Sorted (· < ·) (sortedDedup l) := by
  induction l with
  | nil => simp [sortedDedup]
  | cons c rest ih => exact sorted_insertSortedDedup ih

theorem mem_sortedDedup {a : Char} {l : List Char} :
    a ∈ sortedDedup l ↔ a ∈ l := by
  induction l with
  | nil => simp [sortedDedup]
  | cons c rest ih =>
    simp [sortedDedup, mem_insertSortedDedup, List.mem_cons] at ih ⊢
    tauto

theorem containsMarker_eq_false_of_sorted (l : List Char)
    (h : List.Sorted (· < ·) l) : containsMarker l = false := by
  induction l with
  | nil => rfl
  | cons c rest ih =>
    rcases List.sorted_cons.mp h with ⟨hd, hs⟩
    simp only [containsMarker, Bool.or_eq_false_iff]
    refine ⟨?_, ih hs⟩
    rcases hsw : startsWithMarker (c :: rest) with _ | _
    · rfl
    · obtain ⟨tail, htl⟩ := (startsWithMarker_iff _).mp hsw
      obtain ⟨rfl, rfl⟩ : c = ':' ∧ rest = '2' :: ',' :: tail := by
        simpa using htl
      have : (':' : Char) < '2' := hd '2' (by simp)
      exact absurd this (by decide)

theorem parse_maildir_flags_build (fn fl : List Char) :
    parse_maildir_flags (build_flagged_filename fn fl)
      = ((parse_maildir_flags fn).1, sortedDedup fl) := by
  have hnc : containsMarker (sortedDedup fl) = false :=
    containsMarker_eq_false_of_sorted _ (sortedDedup_sorted fl)
  set base := (parse_maildir_flags fn).1 with hbase
  have hsplit := splitAtLastMarker_append base (sortedDedup fl) hnc
  have hb : build_flagged_filename fn fl
      = base ++ ':' :: '2' :: ',' :: sortedDedup fl := by
    unfold build_flagged_filename markerChars
    rw [← hbase, List.append_assoc]
    rfl
  rw [hb]
  unfold parse_maildir_flags
  rw [hsplit]

/-- Claim C8: the flag section of a filename rebuilt by
`build_flagged_filename` is sorted in ascending character order with no
duplicate characters, for any input filename and any flag multiset; and
`parse_maildir_flags` on a filename lacking the `":2,"` marker yields an
empty flag set. -/
theorem build_flagged_filename_sorted_nodup (fn fl other : List Char) :
    (List.Sorted (· < ·) (parse_maildir_flags (build_flagged_filename fn fl)).2
      ∧ (parse_maildir_flags (build_flagged_filename fn fl)).2.Nodup)
    ∧ (containsMarker other = false → parse_maildir_flags other = (other, [])) := by
  constructor
  · rw [parse_maildir_flags_build]
    exact ⟨sortedDedup_sorted fl,
      (sortedDedup_sorted fl).imp fun hlt => ne_of_lt hlt⟩
  · intro hno
    unfold parse_maildir_flags
    rw [(splitAtLastMarker_eq_none other).mpr hno]

/-- Witness for C8 at a concrete filename and flag multiset. -/
theorem build_flagged_filename_sorted_nodup_witness :
    containsMarker "msg".toList = false
      ∧ parse_maildir_flags "msg".toList = ("msg".toList, []) :=
  ⟨by decide,
    (build_flagged_filename_sorted_nodup "f".toList "SFS".toList "msg".toList).2
      (by decide)⟩

/-- Claim C9: adding the same flag twice is idempotent — after
`rename_with_flag` has processed a flag, a second application with the
same flag reports `false` (already set) and leaves the file name and
location unchanged. -/
theorem rename_with_flag_idempotent (p : MaildirPath) (flag : Char) :
    rename_with_flag (rename_with_flag p flag).2 flag
      = (false, (rename_with_flag p flag).2) := by
  by_cases h : flag ∈ (parse_maildir_flags p.filename).2
  · have h1 : rename_with_flag p flag = (false, p) := by
      simp [rename_with_flag, h]
    rw [h1]
    exact h1
  · have hfile : (rename_with_flag p flag).2.filename
        = build_flagged_filename p.filename
            ((parse_maildir_flags p.filename).2 ++ [flag]) := by
      simp [rename_with_flag, h]
    set p1 := (rename_with_flag p flag).2 with hp1
    have hf : flag ∈ (parse_maildir_flags p1.filename).2 := by
      rw [hfile, parse_maildir_flags_build]
      simp [mem_sortedDedup]
    simp [rename_with_flag, hf]

/-- Counterexample to C5 as stated: adding the flag `'F'` (not the Seen
flag) to a message in `new/` that already carries `'S'` does relocate
the file to `cur/`, because the code tests `'S' in new_flags` rather
than whether the flag being added is `'S'`. -/
theorem rename_with_flag_moves_on_inherited_seen :
    ('F' : Char) ≠ 'S'
    ∧ (rename_with_flag ⟨"/m".toList, "new".toList, "msg:2,S".toList⟩ 'F').1 = true
    ∧ (rename_with_flag ⟨"/m".toList, "new".toList, "msg:2,S".toList⟩ 'F').2.subdir
        ≠ "new".toList := by
  refine ⟨by decide, by decide, by decide⟩

/-- Claim C5 as amended: when genuinely adding a flag (not already
present), the file is relocated exactly when it resides in `new` and the
flag set after the addition contains `'S'` (the added flag is `'S'` or
`'S'` was already present); any relocation is to the sibling `cur`
directory. -/
theorem rename_with_flag_cur_characterization (p : MaildirPath) (flag : Char)
    (h : flag ∉ (parse_maildir_flags p.filename).2) :
    ((rename_with_flag p flag).2.subdir ≠ p.subdir
      ↔ p.subdir = "new".toList
          ∧ ('S' ∈ (parse_maildir_flags p.filename).2 ∨ flag = 'S'))
    ∧ ((rename_with_flag p flag).2.subdir ≠ p.subdir
        → (rename_with_flag p flag).2.subdir = "cur".toList) := by
  have hs : (rename_with_flag p flag).2.subdir
      = if 'S' ∈ (parse_maildir_flags p.filename).2 ++ [flag]
            ∧ p.subdir = "new".toList
        then "cur".toList else p.subdir := by
    simp [rename_with_flag, h]
  by_cases hc : 'S' ∈ (parse_maildir_flags p.filename).2 ++ [flag]
      ∧ p.subdir = "new".toList
  · rw [hs, if_pos hc]
    obtain ⟨hmem, hnew⟩ := hc
    have hne : ("cur".toList : List Char) ≠ p.subdir := by
      rw [hnew]; decide
    have hor : 'S' ∈ (parse_maildir_flags p.filename).2 ∨ flag = 'S' := by
      rcases List.mem_append.mp hmem with hm | hm
      · exact Or.inl hm
      · exact Or.inr (List.mem_singleton.mp hm).symm
    exact ⟨⟨fun _ => ⟨hnew, hor⟩, fun _ => hne⟩, fun _ => rfl⟩
  · rw [hs, if_neg hc]
    constructor
    · constructor
      · intro habs
        exact absurd rfl habs
      · rintro ⟨hnew, hor⟩
        refine absurd ⟨?_, hnew⟩ hc
        rcases hor with hm | rfl
        · exact List.mem_append.mpr (Or.inl hm)
        · exact List.mem_append.mpr (Or.inr (by simp))
    · intro habs
      exact absurd rfl habs

/-- Witness for C5 (amended): adding `'S'` to a plain filename in `new`
relocates the file, and the relocation target is `cur`. -/
theorem rename_with_flag_cur_characterization_witness :
    ('S' ∉ (parse_maildir_flags ("msg".toList : List Char)).2)
    ∧ (((rename_with_flag ⟨"/m".toList, "new".toList, "msg".toList⟩ 'S').2.subdir
          ≠ "new".toList
        ↔ ("new".toList : List Char) = "new".toList
            ∧ ('S' ∈ (parse_maildir_flags ("msg".toList : List Char)).2 ∨ 'S' = 'S'))
      ∧ ((rename_with_flag ⟨"/m".toList, "new".toList, "msg".toList⟩ 'S').2.subdir
            ≠ "new".toList
          → (rename_with_flag ⟨"/m".toList, "new".toList, "msg".toList⟩ 'S').2.subdir
              = "cur".toList)) :=
  ⟨by decide,
    rename_with_flag_cur_characterization
      ⟨"/m".toList, "new".toList, "msg".toList⟩ 'S' (by decide)⟩

/-! ### Lemmas about the cleaning rule -/

theorem rstripHyphens_subset (l : List Char) : rstripHyphens l ⊆ l := by
  intro c hc
  simp only [rstripHyphens, List.mem_reverse] at hc
  exact List.mem_reverse.mp ((List.dropWhile_suffix _).sublist.subset hc)

theorem rstripHyphens_length_le (l : List Char) :
    (rstripHyphens l).length ≤ l.length := by
  simp only [rstripHyphens, List.length_reverse]
  exact le_trans (List.dropWhile_suffix _).sublist.length_le
    (le_of_eq (List.length_reverse l))

theorem stripHyphens_subset (l : List Char) : stripHyphens l ⊆ l := by
  intro c hc
  simp only [stripHyphens, List.mem_reverse] at hc
  have h1 := (List.dropWhile_suffix (fun c => c = '-')).sublist.subset hc
  rw [List.mem_reverse] at h1
  exact (List.dropWhile_suffix _).sublist.subset h1

theorem pyStrip_subset (l : List Char) : pyStrip l ⊆ l := by
  intro c hc
  simp only [pyStrip, List.mem_reverse] at hc
  have h1 := (List.dropWhile_suffix isPySpace).sublist.subset hc
  rw [List.mem_reverse] at h1
  exact (List.dropWhile_suffix _).sublist.subset h1

theorem collapseHyphensGo_mem {c : Char} {l : List Char} :
    ∀ {b : Bool}, c ∈ collapseHyphensGo b l → c = '-' ∨ c ∈ l := by
  induction l with
  | nil => intro b hc; simp [collapseHyphensGo] at hc
  | cons d ds ih =>
    intro b hc
    by_cases hd : d = '-'
    · subst hd
      by_cases hb : b
      · subst hb
        simp only [collapseHyphensGo, if_pos rfl, if_pos trivial] at hc
        rcases ih hc with rfl | hm
        · exact Or.inl rfl
        · exact Or.inr (List.mem_cons_of_mem _ hm)
      · have hb' : b = false := by simpa using hb
        subst hb'
        simp only [collapseHyphensGo, if_pos rfl, Bool.false_eq_true, if_neg] at hc
        rcases List.mem_cons.mp hc with rfl | hc2
        · exact Or.inl rfl
        · rcases ih hc2 with rfl | hm
          · exact Or.inl rfl
          · exact Or.inr (List.mem_cons_of_mem _ hm)
    · simp only [collapseHyphensGo, if_neg hd] at hc
      rcases List.mem_cons.mp hc with rfl | hc2
      · exact Or.inr (List.mem_cons_self _ _)
      · rcases ih hc2 with rfl | hm
        · exact Or.inl rfl
        · exact Or.inr (List.mem_cons_of_mem _ hm)

theorem clean_all_keep (t : List Char) (n : Nat) :
    ∀ c ∈ clean_for_filename t n, keepChar c = true := by
  intro c hc
  simp only [clean_for_filename] at hc
  have hc5 : c ∈ stripHyphens (collapseHyphens
      (((pyStrip t).map fun c => if c = ' ' then '-' else c).filter keepChar)) := by
    split at hc
    · exact (List.take_subset _ _) (rstripHyphens_subset _ hc)
    · exact hc
  have hc4 := stripHyphens_subset _ hc5
  rcases collapseHyphensGo_mem hc4 with rfl | hc3
  · decide
  · exact List.of_mem_filter hc3

theorem clean_length_le (t : List Char) (n : Nat) :
    (clean_for_filename t n).length ≤ n := by
  simp only [clean_for_filename]
  split
  · exact le_trans (rstripHyphens_length_le _) (List.length_take_le _ _)
  · omega

theorem keepChar_not_forbidden {c : Char} (h : keepChar c = true) :
    forbiddenChar c = false := by
  rcases hf : forbiddenChar c with _ | _
  · rfl
  · simp only [forbiddenChar, Bool.or_eq_true, beq_iff_eq] at hf
    rcases hf with ((((rfl | rfl) | rfl) | rfl) | rfl) | rfl <;>
      exact absurd h (by decide)

/-- Counterexample to C6 as stated: `generate_attachment_filename`
concatenates the original extension verbatim after the cleaned stem, so
a forbidden `'!'` inside the extension survives into the output, even
with a basename produced by `generate_basename`. -/
theorem attachment_filename_keeps_forbidden_char :
    generate_basename (fun _ => none) (fun _ => ([], []))
        ⟨none, none⟩ = Except.ok "unknown-unknown".toList
    ∧ '!' ∈ generate_attachment_filename "unknown-unknown".toList
        (some "a.b!c".toList)
    ∧ forbiddenChar '!' = true :=
  ⟨rfl, by decide, rfl⟩

/-- Claim C6 as amended: the cleaned segments (the subject segment of
the email filename and the stem segment of the attachment filename, both
produced by `_clean_for_filename`) never contain a space, `(`, `)`, `&`,
`!` or `:`, and the cleaned subject segment never exceeds 80 characters;
the basename and the original extension are concatenated verbatim and
are not covered by this guarantee. -/
theorem clean_segments_safe (b subject stem : List Char) :
    ((clean_for_filename subject 80).all (fun c => !forbiddenChar c) = true
      ∧ (clean_for_filename subject 80).length ≤ 80)
    ∧ (clean_for_filename stem 80).all (fun c => !forbiddenChar c) = true
    ∧ (subject ≠ [] →
        generate_email_filename b (some subject)
          = b ++ "-EMAIL-".toList ++ clean_for_filename subject 80) := by
  have hall : ∀ t : List Char,
      (clean_for_filename t 80).all (fun c => !forbiddenChar c) = true := by
    intro t
    rw [List.all_eq_true]
    intro c hc
    simp [keepChar_not_forbidden (clean_all_keep t 80 c hc)]
  refine ⟨⟨hall subject, clean_length_le subject 80⟩, hall stem, ?_⟩
  intro hne
  have ht : truthy (some subject) = true := by
    simp [truthy, List.isEmpty_iff, hne]
  simp [generate_email_filename, ht]

/-- Witness for C6 (amended), discharging the non-empty-subject
hypothesis at a concrete subject. -/
theorem clean_segments_safe_witness :
    ("hi".toList : List Char) ≠ []
    ∧ generate_email_filename "B".toList (some "hi".toList)
        = "B".toList ++ "-EMAIL-".toList ++ clean_for_filename "hi".toList 80 :=
  ⟨by decide,
    (clean_segments_safe "B".toList "hi".toList "x".toList).2.2 (by decide)⟩

/-- Claim C10: the `"no-subject"` substitute is used only for an absent
or empty subject; a non-empty subject whose characters are all removed
by the cleaning rule yields `<basename>-EMAIL-` with an empty subject
segment and a trailing hyphen, not `<basename>-EMAIL-no-subject`. -/
theorem email_filename_empty_cleaned_subject (b subject : List Char)
    (h1 : subject ≠ []) (h2 : ∀ c ∈ subject, removedByClean c = true) :
    generate_email_filename b (some subject) = b ++ "-EMAIL-".toList
    ∧ generate_email_filename b (some subject)
        ≠ b ++ "-EMAIL-no-subject".toList := by
  have hclean : clean_for_filename subject 80 = [] := by
    have hfilter : ((pyStrip subject).map
        (fun c => if c = ' ' then '-' else c)).filter keepChar = [] := by
      rw [List.filter_eq_nil_iff]
      intro c hcm
      obtain ⟨a, ha, rfl⟩ := List.mem_map.mp hcm
      have hra := h2 a (pyStrip_subset _ ha)
      simp only [removedByClean, Bool.and_eq_true, Bool.not_eq_eq_eq_not,
        Bool.not_true] at hra
      have hna : a ≠ ' ' := by
        intro habs
        subst habs
        exact absurd hra.2 (by decide)
      rw [if_neg hna]
      simp [hra.1]
    simp [clean_for_filename, hfilter, stripHyphens, collapseHyphens,
      collapseHyphensGo]
  have ht : truthy (some subject) = true := by
    simp [truthy, List.isEmpty_iff, h1]
  have hmain : generate_email_filename b (some subject)
      = b ++ "-EMAIL-".toList := by
    simp [generate_email_filename, ht, hclean]
  refine ⟨hmain, ?_⟩
  rw [hmain]
  intro heq
  have hsuffix : ("-EMAIL-".toList : List Char) = "-EMAIL-no-subject".toList :=
    List.append_cancel_left heq
  exact absurd hsuffix (by decide)

/-- Witness for C10 at the subject `"!!!"`. -/
theorem email_filename_empty_cleaned_subject_witness :
    (("!!!".toList : List Char) ≠ []
        ∧ ∀ c ∈ ("!!!".toList : List Char), removedByClean c = true)
    ∧ generate_email_filename "B".toList (some "!!!".toList)
        = "B".toList ++ "-EMAIL-".toList
    ∧ generate_email_filename "B".toList (some "!!!".toList)
        ≠ "B".toList ++ "-EMAIL-no-subject".toList :=
  ⟨⟨by decide, by decide⟩,
    email_filename_empty_cleaned_subject "B".toList "!!!".toList
      (by decide) (by decide)⟩

/-! ### Lemmas about the Received-header parser -/

theorem foldl_stepHeader_of_isSome (hs : List (List Char)) (st : Timing)
    (h : st.received_server ≠ none) :
    hs.foldl stepHeader st = st := by
  induction hs generalizing st with
  | nil => rfl
  | cons hd tl ih =>
    have hstep : stepHeader st hd = st := by
      simp only [stepHeader]
      rw [if_neg]
      intro hc
      exact h hc.2.2
    rw [List.foldl_cons, hstep, ih st h]

theorem foldl_stepHeader_init (hs : List (List Char)) :
    hs.foldl stepHeader ⟨none, none, none, none⟩ =
      match hs.find? hasBothTokens with
      | some h =>
        ⟨timestampOf (collapseWs h), searchHost kwFrom (collapseWs h),
          timestampOf (collapseWs h), searchHost kwBy (collapseWs h)⟩
      | none => ⟨none, none, none, none⟩ := by
  induction hs with
  | nil => rfl
  | cons hd tl ih =>
    by_cases hb : hasBothTokens hd
    · rw [List.find?_cons_of_pos _ hb]
      have hfm : (searchHost kwFrom (collapseWs hd)).isSome := by
        simp only [hasBothTokens, Bool.and_eq_true] at hb
        exact hb.1
      have hbm : (searchHost kwBy (collapseWs hd)).isSome := by
        simp only [hasBothTokens, Bool.and_eq_true] at hb
        exact hb.2
      have hstep : stepHeader ⟨none, none, none, none⟩ hd =
          ⟨timestampOf (collapseWs hd), searchHost kwFrom (collapseWs hd),
            timestampOf (collapseWs hd), searchHost kwBy (collapseWs hd)⟩ := by
        simp [stepHeader, hfm, hbm]
      rw [List.foldl_cons, hstep]
      apply foldl_stepHeader_of_isSome
      intro hnone
      have h2 : searchHost kwBy (collapseWs hd) = none := hnone
      rw [h2] at hbm
      exact absurd hbm (by simp)
    · rw [List.find?_cons_of_neg _ hb]
      have hstep : stepHeader ⟨none, none, none, none⟩ hd
          = ⟨none, none, none, none⟩ := by
        simp only [stepHeader]
        rw [if_neg]
        intro hc
        exact hb (by simp only [hasBothTokens, Bool.and_eq_true]; exact ⟨hc.1, hc.2.1⟩)
      rw [List.foldl_cons, hstep, ih]

/-- Claim C7: `parse_received_headers` takes the first header containing
both a `from` host and a `by` host as the authoritative hop, filling all
four timing fields from it; with no such header it falls back to the
first header for `received_server` (defaulting to `"unknown"`) and
`received_time`, leaving the sent fields unset; with no headers at all
every field is unset.  The function is total, so malformed headers never
raise. -/
theorem parse_received_headers_characterization (headers : List (List Char)) :
    parse_received_headers headers =
      match headers.find? hasBothTokens with
      | some h =>
        ⟨timestampOf (collapseWs h), searchHost kwFrom (collapseWs h),
          timestampOf (collapseWs h), searchHost kwBy (collapseWs h)⟩
      | none =>
        match headers with
        | [] => ⟨none, none, none, none⟩
        | h0 :: _ =>
          ⟨none, none, timestampOf (collapseWs h0),
            some ((searchHost kwBy (collapseWs h0)).getD
              ['u', 'n', 'k', 'n', 'o', 'w', 'n'])⟩ := by
  unfold parse_received_headers
  rw [foldl_stepHeader_init]
  cases hf : headers.find? hasBothTokens with
  | some h =>
    have hbm : (searchHost kwBy (collapseWs h)).isSome := by
      have := List.find?_some hf
      simp only [hasBothTokens, Bool.and_eq_true] at this
      exact this.2
    rw [if_neg]
    intro hc
    have h2 : searchHost kwBy (collapseWs h) = none := hc
    rw [h2] at hbm
    exact absurd hbm (by simp)
  | none =>
    cases headers with
    | nil => rfl
    | cons h0 tl =>
      rw [if_pos rfl]

/-! ### Lemmas about the UTF-8 decoder -/

theorem utf8DecodeGo_fuel_irrel (f1 : Nat) :
    ∀ (l : List Nat) (f2 : Nat), l.length ≤ f1 → l.length ≤ f2 →
      utf8DecodeGo f1 l = utf8DecodeGo f2 l := by
  induction f1 with
  | zero =>
    intro l f2 h1 _
    have hl : l = [] := List.eq_nil_of_length_eq_zero (Nat.le_zero.mp h1)
    subst hl
    cases f2 <;> rfl
  | succ n ih =>
    intro l f2 h1 h2
    cases l with
    | nil => cases f2 <;> rfl
    | cons b0 rest =>
      cases f2 with
      | zero => simp at h2
      | succ m =>
        rcases hstep : utf8Step b0 rest with ⟨oc, k⟩
        have hdl : (rest.drop (k - 1)).length ≤ rest.length := by
          simp [List.length_drop]
        have h1' : rest.length ≤ n := by simpa using h1
        have h2' : rest.length ≤ m := by simpa using h2
        have hrec := ih (rest.drop (k - 1)) m (le_trans hdl h1') (le_trans hdl h2')
        simp only [utf8DecodeGo, hstep, hrec]

theorem decodeUtf8Ignore_cons (b0 : Nat) (rest : List Nat) (oc : Option Char)
    (k : Nat) (h : utf8Step b0 rest = (oc, k)) :
    decodeUtf8Ignore (b0 :: rest) =
      match oc with
      | some c => c :: decodeUtf8Ignore (rest.drop (k - 1))
      | none => decodeUtf8Ignore (rest.drop (k - 1)) := by
  have hirr := utf8DecodeGo_fuel_irrel rest.length (rest.drop (k - 1))
    ((rest.drop (k - 1)).length) (by simp [List.length_drop]) (le_refl _)
  cases oc with
  | some c =>
    show utf8DecodeGo (b0 :: rest).length (b0 :: rest)
      = c :: utf8DecodeGo (rest.drop (k - 1)).length (rest.drop (k - 1))
    simp only [List.length_cons, utf8DecodeGo, h, hirr]
  | none =>
    show utf8DecodeGo (b0 :: rest).length (b0 :: rest)
      = utf8DecodeGo (rest.drop (k - 1)).length (rest.drop (k - 1))
    simp only [List.length_cons, utf8DecodeGo, h, hirr]

theorem utf8Step_ascii (b0 : Nat) (rest : List Nat) (h : b0 < 0x80) :
    utf8Step b0 rest = (some (Char.ofNat b0), 1) := by
  simp [utf8Step, h]

theorem utf8Step_two (b0 b1 : Nat) (rest : List Nat)
    (h0 : 0xC2 ≤ b0 ∧ b0 ≤ 0xDF) (h1 : 0x80 ≤ b1 ∧ b1 ≤ 0xBF) :
    utf8Step b0 (b1 :: rest)
      = (some (Char.ofNat ((b0 - 0xC0) * 64 + (b1 - 0x80))), 2) := by
  have hn : ¬ b0 < 0x80 := by omega
  have hc : isCont b1 = true := by
    simp only [isCont, Bool.and_eq_true, decide_eq_true_eq]
    omega
  simp [utf8Step, hn, h0, hc]

theorem utf8Step_three (b0 b1 b2 : Nat) (rest : List Nat)
    (h0 : 0xE0 ≤ b0 ∧ b0 ≤ 0xEF) (h1 : isCont3 b0 b1 = true)
    (h2 : 0x80 ≤ b2 ∧ b2 ≤ 0xBF) :
    utf8Step b0 (b1 :: b2 :: rest)
      = (some (Char.ofNat
          ((b0 - 0xE0) * 4096 + (b1 - 0x80) * 64 + (b2 - 0x80))), 3) := by
  have hn1 : ¬ b0 < 0x80 := by omega
  have hn2 : ¬ (0xC2 ≤ b0 ∧ b0 ≤ 0xDF) := by omega
  have hc2 : isCont b2 = true := by
    simp only [isCont, Bool.and_eq_true, decide_eq_true_eq]
    omega
  simp [utf8Step, hn1, hn2, h0, h1, hc2]

theorem utf8Step_four (b0 b1 b2 b3 : Nat) (rest : List Nat)
    (h0 : 0xF0 ≤ b0 ∧ b0 ≤ 0xF4) (h1 : isCont4 b0 b1 = true)
    (h2 : 0x80 ≤ b2 ∧ b2 ≤ 0xBF) (h3 : 0x80 ≤ b3 ∧ b3 ≤ 0xBF) :
    utf8Step b0 (b1 :: b2 :: b3 :: rest)
      = (some (Char.ofNat ((b0 - 0xF0) * 262144 + (b1 - 0x80) * 4096
          + (b2 - 0x80) * 64 + (b3 - 0x80))), 4) := by
  have hn1 : ¬ b0 < 0x80 := by omega
  have hn2 : ¬ (0xC2 ≤ b0 ∧ b0 ≤ 0xDF) := by omega
  have hn3 : ¬ (0xE0 ≤ b0 ∧ b0 ≤ 0xEF) := by omega
  have hc2 : isCont b2 = true := by
    simp only [isCont, Bool.and_eq_true, decide_eq_true_eq]
    omega
  have hc3 : isCont b3 = true := by
    simp only [isCont, Bool.and_eq_true, decide_eq_true_eq]
    omega
  simp [utf8Step, hn1, hn2, hn3, h0, h1, hc2, hc3]

theorem decode_encChar (c : Char) (rest : List Nat) :
    decodeUtf8Ignore (utf8EncodeChar c ++ rest) = c :: decodeUtf8Ignore rest := by
  have hv' : c.toNat < 0xD800 ∨ (0xDFFF < c.toNat ∧ c.toNat < 0x110000) := c.valid
  by_cases ha : c.toNat < 0x80
  · have he : utf8EncodeChar c = [c.toNat] := by
      simp [utf8EncodeChar, ha]
    rw [he, List.cons_append, List.nil_append]
    rw [decodeUtf8Ignore_cons _ _ _ _ (utf8Step_ascii c.toNat rest ha)]
    simp [Char.ofNat_toNat]
  · by_cases hb : c.toNat < 0x800
    · have he : utf8EncodeChar c = [0xC0 + c.toNat / 64, 0x80 + c.toNat % 64] := by
        simp [utf8EncodeChar, ha, hb]
      rw [he]
      simp only [List.cons_append, List.nil_append]
      have h0 : 0xC2 ≤ 0xC0 + c.toNat / 64 ∧ 0xC0 + c.toNat / 64 ≤ 0xDF := by omega
      have h1 : 0x80 ≤ 0x80 + c.toNat % 64 ∧ 0x80 + c.toNat % 64 ≤ 0xBF := by omega
      rw [decodeUtf8Ignore_cons _ _ _ _ (utf8Step_two _ _ _ h0 h1)]
      have hval : c.toNat / 64 * 64 + c.toNat % 64 = c.toNat := by omega
      simp [hval, Char.ofNat_toNat, List.drop]
    · by_cases hc : c.toNat < 0x10000
      · have he : utf8EncodeChar c
            = [0xE0 + c.toNat / 4096, 0x80 + c.toNat / 64 % 64,
                0x80 + c.toNat % 64] := by
          simp [utf8EncodeChar, ha, hb, hc]
        rw [he]
        simp only [List.cons_append, List.nil_append]
        have h0 : 0xE0 ≤ 0xE0 + c.toNat / 4096 ∧ 0xE0 + c.toNat / 4096 ≤ 0xEF := by
          omega
        have h1 : isCont3 (0xE0 + c.toNat / 4096) (0x80 + c.toNat / 64 % 64)
            = true := by
          unfold isCont3
          rcases hv' with hlow | ⟨hs1, hs2⟩ <;>
            (split_ifs with he0 hed <;>
              (simp only [isCont, Bool.and_eq_true, decide_eq_true_eq]; omega))
        have h2 : 0x80 ≤ 0x80 + c.toNat % 64 ∧ 0x80 + c.toNat % 64 ≤ 0xBF := by
          omega
        rw [decodeUtf8Ignore_cons _ _ _ _ (utf8Step_three _ _ _ _ h0 h1 h2)]
        have hval : c.toNat / 4096 * 4096 + c.toNat / 64 % 64 * 64
            + c.toNat % 64 = c.toNat := by omega
        simp [hval, Char.ofNat_toNat, List.drop]
      · have hhi : c.toNat < 0x110000 := by
          rcases hv' with h | h <;> omega
        have he : utf8EncodeChar c
            = [0xF0 + c.toNat / 262144, 0x80 + c.toNat / 4096 % 64,
                0x80 + c.toNat / 64 % 64, 0x80 + c.toNat % 64] := by
          simp [utf8EncodeChar, ha, hb, hc]
        rw [he]
        simp only [List.cons_append, List.nil_append]
        have h0 : 0xF0 ≤ 0xF0 + c.toNat / 262144
            ∧ 0xF0 + c.toNat / 262144 ≤ 0xF4 := by omega
        have h1 : isCont4 (0xF0 + c.toNat / 262144) (0x80 + c.toNat / 4096 % 64)
            = true := by
          unfold isCont4
          split_ifs with hf0 hf4 <;>
            (simp only [isCont, Bool.and_eq_true, decide_eq_true_eq]; omega)
        have h2 : 0x80 ≤ 0x80 + c.toNat / 64 % 64
            ∧ 0x80 + c.toNat / 64 % 64 ≤ 0xBF := by omega
        have h3 : 0x80 ≤ 0x80 + c.toNat % 64 ∧ 0x80 + c.toNat % 64 ≤ 0xBF := by
          omega
        rw [decodeUtf8Ignore_cons _ _ _ _ (utf8Step_four _ _ _ _ _ h0 h1 h2 h3)]
        have hval : c.toNat / 262144 * 262144 + c.toNat / 4096 % 64 * 4096
            + c.toNat / 64 % 64 * 64 + c.toNat % 64 = c.toNat := by omega
        simp [hval, Char.ofNat_toNat, List.drop]

theorem decode_utf8Encode_append (s : List Char) (extra : List Nat) :
    decodeUtf8Ignore (utf8Encode s ++ extra) = s ++ decodeUtf8Ignore extra := by
  induction s with
  | nil => simp [utf8Encode]
  | cons c s ih =>
    have hsplit : utf8Encode (c :: s) = utf8EncodeChar c ++ utf8Encode s := by
      simp [utf8Encode]
    rw [hsplit, List.append_assoc, decode_encChar, ih, List.cons_append]

/-- Counterexample to C4 as stated: `extract_body` decodes payload bytes
with `errors="ignore"`, so the single undecodable byte `0xFF` is dropped
and the decoded body is empty, not the replacement character U+FFFD that
the claim requires at that position. -/
theorem extract_body_drops_invalid_byte :
    extract_body none [⟨"text/plain".toList, some [0xFF]⟩] = []
    ∧ ([] : List Char) ≠ ['�'] :=
  ⟨by decide, by decide⟩

/-- Claim C4 as amended: in `extract_body`, decoding payload bytes as
UTF-8 never fails, and every undecodable byte is silently dropped
(`errors="ignore"`) rather than replaced: around a stray `0xFF` byte the
valid surroundings decode unchanged and nothing is inserted in its
place. -/
theorem extract_body_ignore_drops_bytes (s t : List Char) :
    extract_body none
        [⟨"text/plain".toList, some (utf8Encode s ++ 0xFF :: utf8Encode t)⟩]
      = s ++ t := by
  have hbody : extract_body none
        [⟨"text/plain".toList, some (utf8Encode s ++ 0xFF :: utf8Encode t)⟩]
      = decodeUtf8Ignore (utf8Encode s ++ 0xFF :: utf8Encode t) := by
    simp [extract_body, bodyStep]
  have hff : decodeUtf8Ignore (0xFF :: utf8Encode t)
      = decodeUtf8Ignore ((utf8Encode t).drop 0) :=
    decodeUtf8Ignore_cons _ _ _ _ rfl
  have ht : decodeUtf8Ignore (utf8Encode t) = t := by
    have h2 := decode_utf8Encode_append t []
    simpa [decodeUtf8Ignore, utf8DecodeGo] using h2
  rw [hbody, decode_utf8Encode_append, hff, List.drop_zero, ht]

/-- Claim C3 fails on the code: `generate_basename` is not total.  For
the From header `"   " <a@b.c>` (a quoted, all-whitespace display name),
CPython `email.utils.parseaddr` returns the pair
`("   ", "a@b.c")` — the oracle supplied here — so `display_name` is
truthy, `display_name.split()` is empty, and `display_name.split()[0]`
raises `IndexError` instead of falling back to `"unknown"` as the
docstring promises. -/
theorem generate_basename_index_error :
    generate_basename (fun _ => none)
        (fun _ => ("   ".toList, "a@b.c".toList))
        ⟨none, some "\"   \" <a@b.c>".toList⟩
      = Except.error PyExn.indexError := rfl

end Archangel



